import Mathlib

/-!
Verification of the betweenness-centrality aggregation pipeline of
snailtrail (src/snailtrail/src/exploration/betweenness_centrality.rs)
against its natural-language specification.

The file shallowly embeds the Rust code: streams become per-epoch lists,
the timely aggregate operator becomes grouping by key over such a list,
machine integers become Nat with explicit reduction modulo 2 ^ 64, and
panics become explicit outcome constructors.
-/

/-- Model of std::time::Duration: a count of seconds and of nanoseconds.
Rust maintains nanos below 10 ^ 9; the claims here do not need that bound. -/
structure Duration where
  secs : Nat
  nanos : Nat
  deriving DecidableEq, Repr

/-- Model of Duration::as_nanos, the total nanosecond count
(secs * 10 ^ 9 + nanos, a u128 in Rust, here an unbounded Nat). -/
def Duration.asNanos (d : Duration) : Nat :=
  d.secs * 1000000000 + d.nanos

/-- Model of the exchange key closure at lines 111-113,
fun x => x.0.as_nanos() as u64: the timestamp component of the pair,
taken as nanoseconds and truncated to u64. It reads only the first
(timestamp) component of the pair, never the datum. -/
def exchangeKey {D : Type} (x : Duration × D) : Nat :=
  x.1.asNanos % 2 ^ 64

/-- Model of one batch of the PushTime operator (lines 56-71): every datum
of the batch held by capability cap is emitted as (cap.time(), datum)
in the same session, in order. -/
def pushTimeBatch {D : Type} (t : Duration) : List D → List (Duration × D)
  | [] => []
  | d :: ds => (t, d) :: pushTimeBatch t ds

/-- Model of the PushTime operator over a whole stream, viewed as a list of
timestamped batches: each batch keeps its capability time and its data are
paired with that time. -/
def pushTime {D : Type} (s : List (Duration × List D)) :
    List (Duration × List (Duration × D)) :=
  s.map (fun b => (b.1, pushTimeBatch b.1 b.2))

/-- Model of the timely exchange operator keyed by exchangeKey: it reroutes
items between workers but, on the logical (worker-agnostic) content of the
stream at a fixed epoch, it is the identity. -/
def exchangeByTimeKey {D : Type} (s : List (Duration × D)) : List (Duration × D) :=
  s

/-- Model of the composite push_time().exchange(...).map(fun x => x.1)
applied at lines 111-113 to one epoch batch of data at time t. -/
def timePartition {D : Type} (t : Duration) (ds : List D) : List D :=
  (exchangeByTimeKey (pushTimeBatch t ds)).map (fun x => x.2)

/-- Fallible single insertion for the comparator a.partial_cmp(b).unwrap()
of line 138: inserting a into a sorted list, none models a panic of the
unwrap on an incomparable pair. -/
def orderedInsertP {V : Type} (cmp : V → V → Option Ordering) (a : V) :
    List V → Option (List V)
  | [] => some [a]
  | b :: l =>
    match cmp a b with
    | none => none
    | some Ordering.lt => some (a :: b :: l)
    | some Ordering.eq => some (a :: b :: l)
    | some Ordering.gt => (orderedInsertP cmp a l).map (fun r => b :: r)

/-- Fallible stable ascending sort modelling agg.sort_by of line 138 with
the comparator a.partial_cmp(b).unwrap(); none models the panic raised by
unwrap when a compared pair is incomparable. -/
def insertionSortP {V : Type} (cmp : V → V → Option Ordering) :
    List V → Option (List V)
  | [] => some []
  | a :: l => (insertionSortP cmp l).bind (orderedInsertP cmp a)

/-- Comparator of a flow value type whose PartialOrd is total (the u64
implementation, and f64 restricted to non-NaN values): partial_cmp always
succeeds and agrees with the linear order. -/
def linCmp {V : Type} [LinearOrder V] (a b : V) : Option Ordering :=
  some (compare a b)

/-- Model of the f64 flow values as ordered data: nan is incomparable with
everything (as in IEEE partial_cmp), finite values compare by their order.
The numeric magnitude is represented by an integer since only the order
structure matters for the sorting claims. -/
inductive F64 where
  | nan : F64
  | fin : Int → F64
  deriving DecidableEq, Repr

/-- Model of f64::partial_cmp: none whenever nan is involved. -/
def f64PartialCmp : F64 → F64 → Option Ordering
  | F64.fin a, F64.fin b => some (compare a b)
  | _, _ => none

/-- Model of the ScaleReduce implementation for u64 (lines 35-39):
self * other * (mult as u64), every u64 multiplication reduced
modulo 2 ^ 64 and the usize-to-u64 cast modelled by the same reduction. -/
def scaleReduceU64 (self other mult : Nat) : Nat :=
  (self * other % 2 ^ 64) * (mult % 2 ^ 64) % 2 ^ 64

/-- Idealised model of the ScaleReduce implementation for f64
(lines 41-45): self * other * (mult as f64) in exact rational arithmetic;
rounding of f64 is outside the scope of the claims. -/
def scaleReduceF64 (self other : ℚ) (mult : Nat) : ℚ :=
  self * other * (mult : ℚ)

/-- ScaleReduce on the F64 order model, used only to instantiate the
aggregation; nan propagates as in IEEE arithmetic. -/
def f64ScaleReduce : F64 → F64 → Nat → F64
  | F64.fin a, F64.fin b, m => F64.fin (a * b * (m : Int))
  | _, _, _ => F64.nan

/-- Outcome of the aggregation closure at lines 137-157 for one group:
either an emitted (key, centrality) tuple, or one of the panics the code
can raise. parityPanic carries the length, the (sorted) observed multiset
and the key, exactly the data interpolated into the panic and assert
messages of lines 145 and 153; sortPanic is the unwrap panic of line 138;
indexPanic is the out-of-bounds panic agg[0] would raise on an empty
group (unreachable through the aggregate operator). -/
inductive AggOutcome (K V : Type) where
  | output : K → V → AggOutcome K V
  | parityPanic : Nat → List V → K → AggOutcome K V
  | sortPanic : K → AggOutcome K V
  | indexPanic : K → AggOutcome K V
  deriving DecidableEq, Repr

/-- Key associated with an aggregation outcome. -/
def AggOutcome.key {K V : Type} : AggOutcome K V → K
  | AggOutcome.output k _ => k
  | AggOutcome.parityPanic _ _ k => k
  | AggOutcome.sortPanic k => k
  | AggOutcome.indexPanic k => k

/-- Model of the per-group aggregation closure of lines 137-157: sort the
collected values ascending by partial_cmp().unwrap(); a group of length 1
panics with the length, multiset and key; an odd length fails the
assert_eq of line 153 with the same data; otherwise emit
(key, agg[0].scale_reduce(agg[n/2], n/2)) for n the group length. -/
def aggregateGroupP {K V : Type} (cmp : V → V → Option Ordering)
    (sr : V → V → Nat → V) (key : K) (agg : List V) : AggOutcome K V :=
  match insertionSortP cmp agg with
  | none => AggOutcome.sortPanic key
  | some sorted =>
    if sorted.length = 1 then
      AggOutcome.parityPanic 1 sorted key
    else if sorted.length % 2 = 1 then
      AggOutcome.parityPanic sorted.length sorted key
    else
      match sorted with
      | [] => AggOutcome.indexPanic key
      | a :: rest =>
        AggOutcome.output key
          (sr a ((a :: rest).getD ((a :: rest).length / 2) a)
            ((a :: rest).length / 2))

/-- Distinct keys of an epoch batch of (key, value) pairs, in order of
first appearance. -/
def keysOf {K V : Type} [DecidableEq K] (l : List (K × V)) : List K :=
  (l.map Prod.fst).dedup

/-- Values collected for one key from an epoch batch, in arrival order,
as the aggregate operator folds them with agg.push(val) (line 136). -/
def groupVals {K V : Type} [DecidableEq K] (l : List (K × V)) (k : K) :
    List V :=
  (l.filter (fun x => x.1 = k)).map Prod.snd

/-- Model of the timely aggregate operator of lines 135-158 over one epoch:
values are grouped by key (the hash_code-based exchange of line 158 is
modelled as exact grouping by key identity, per the stable
collision-resistant hashing assumption of the design), each group's values
are folded in arrival order and the emit closure aggregateGroupP is applied
once per distinct key. -/
def aggregateOp {K V : Type} [DecidableEq K] (cmp : V → V → Option Ordering)
    (sr : V → V → Nat → V) (l : List (K × V)) : List (AggOutcome K V) :=
  (keysOf l).map (fun k => aggregateGroupP cmp sr k (groupVals l k))

/-- Model of the full betweenness_centrality pipeline (lines 103-159) over
one epoch at logical time t. The exploration engine group_explore lives in
a different source file and is taken as a parameter ge, applied exactly as
the code applies it: ge edges entries name inKey outKey. The three input
streams are time-partitioned (lines 111-113), the two explorable edge
streams are formed by concatenation with the respective raw entry edges
(lines 115-116), the engine runs forward with extractors (src, dst) and
backward with (dst, src) (lines 118-128), the two outputs are concatenated
(line 131), boundary edges are filtered out (line 134) and the result is
aggregated by edge (lines 135-158). -/
def betweennessCentrality {N D1 V : Type} [DecidableEq D1]
    (ge : List D1 → List (D1 × V) → String → (D1 → Option N) →
      (D1 → Option N) → List (D1 × V))
    (src dst : D1 → Option N)
    (cmp : V → V → Option Ordering) (sr : V → V → Nat → V)
    (name : String) (t : Duration)
    (self : List D1) (forwardEdges backwardEdges : List (D1 × V)) :
    List (AggOutcome D1 V) :=
  let forwardEdges2 := timePartition t forwardEdges
  let backwardEdges2 := timePartition t backwardEdges
  let graphStream := timePartition t self
  let graphStreamFwd := graphStream ++ forwardEdges2.map (fun x => x.1)
  let graphStreamBwd := graphStream ++ backwardEdges2.map (fun x => x.1)
  let output := ge graphStreamFwd forwardEdges2 (name ++ " Forward") src dst
  let output2 := ge graphStreamBwd backwardEdges2 (name ++ " Backward") dst src
  let combined := output ++ output2
  let combined2 :=
    combined.filter (fun x => (src x.1).isSome && (dst x.1).isSome)
  aggregateOp cmp sr combined2

/-- The combined, boundary-filtered (edge, value) stream that the
aggregation stage of betweennessCentrality consumes: both exploration
outputs concatenated, then restricted to edges with both endpoints. -/
def combinedFiltered {N D1 V : Type}
    (ge : List D1 → List (D1 × V) → String → (D1 → Option N) →
      (D1 → Option N) → List (D1 × V))
    (src dst : D1 → Option N) (name : String)
    (self : List D1) (forwardEdges backwardEdges : List (D1 × V)) :
    List (D1 × V) :=
  (ge (self ++ forwardEdges.map (fun x => x.1)) forwardEdges
      (name ++ " Forward") src dst ++
   ge (self ++ backwardEdges.map (fun x => x.1)) backwardEdges
      (name ++ " Backward") dst src).filter
    (fun x => (src x.1).isSome && (dst x.1).isSome)

/- Helper lemmas shared by the claim theorems. -/

/-- Projecting the datum out of one PushTime batch recovers the batch. -/
theorem pushTimeBatch_map_snd {D : Type} (t : Duration) (ds : List D) :
    (pushTimeBatch t ds).map (fun x => x.2) = ds := by
  induction ds with
  | nil => rfl
  | cons d ds ih => simp [pushTimeBatch, ih]

/-- The time-partitioning step is the identity on epoch content. -/
theorem timePartition_eq {D : Type} (t : Duration) (ds : List D) :
    timePartition t ds = ds := by
  simp [timePartition, exchangeByTimeKey, pushTimeBatch_map_snd]

/-- Every item emitted by one PushTime batch carries the batch time. -/
theorem pushTimeBatch_fst {D : Type} (t : Duration) (ds : List D) :
    ∀ x ∈ pushTimeBatch t ds, x.1 = t := by
  induction ds with
  | nil => intro x hx; cases hx
  | cons d ds ih =>
    intro x hx
    cases hx with
    | head => rfl
    | tail _ h => exact ih x h

/-- Fallible insertion agrees with Mathlib's orderedInsert under the total
comparator of a linear order. -/
theorem orderedInsertP_linCmp {V : Type} [LinearOrder V] (a : V)
    (l : List V) :
    orderedInsertP linCmp a l =
      some (List.orderedInsert (fun x y => x ≤ y) a l) := by
  induction l with
  | nil => rfl
  | cons b l ih =>
    rcases h : compare a b with hlt | heq | hgt
    · have hle : a ≤ b := le_of_lt (compare_lt_iff_lt.mp h)
      simp [orderedInsertP, linCmp, h, List.orderedInsert, hle]
    · have hle : a ≤ b := le_of_eq (compare_eq_iff_eq.mp h)
      simp [orderedInsertP, linCmp, h, List.orderedInsert, hle]
    · have hgt2 : ¬ a ≤ b := not_le_of_lt (compare_gt_iff_gt.mp h)
      simp [orderedInsertP, linCmp, h, List.orderedInsert, hgt2, ih]

/-- Fallible sorting agrees with Mathlib's insertionSort under the total
comparator of a linear order: the unwrap of line 138 cannot panic there. -/
theorem insertionSortP_linCmp {V : Type} [LinearOrder V] (l : List V) :
    insertionSortP linCmp l =
      some (List.insertionSort (fun x y => x ≤ y) l) := by
  induction l with
  | nil => rfl
  | cons a l ih =>
    simp [insertionSortP, ih, orderedInsertP_linCmp]

/-- The outcome of one aggregation group carries the key of that group. -/
theorem key_aggregateGroupP {K V : Type} (cmp : V → V → Option Ordering)
    (sr : V → V → Nat → V) (k : K) (l : List V) :
    (aggregateGroupP cmp sr k l).key = k := by
  unfold aggregateGroupP
  split
  · rfl
  · split
    · rfl
    · split
      · rfl
      · split <;> rfl

/-- Every outcome of the aggregate operator is the aggregation of the
group of its own key, and that key occurs in the input batch. -/
theorem mem_aggregateOp {K V : Type} [DecidableEq K]
    {cmp : V → V → Option Ordering} {sr : V → V → Nat → V}
    {l : List (K × V)} {o : AggOutcome K V} (ho : o ∈ aggregateOp cmp sr l) :
    o.key ∈ keysOf l ∧ o = aggregateGroupP cmp sr o.key (groupVals l o.key) := by
  rcases List.mem_map.mp ho with ⟨k, hk, rfl⟩
  rw [key_aggregateGroupP]
  exact ⟨hk, rfl⟩

/-- Keys of an epoch batch are exactly the first components occurring in it. -/
theorem mem_keysOf {K V : Type} [DecidableEq K] {l : List (K × V)} {k : K} :
    k ∈ keysOf l ↔ k ∈ l.map Prod.fst :=
  List.mem_dedup

/-- A key whose group is nonempty occurs among the keys of the batch. -/
theorem mem_keysOf_of_groupVals_ne_nil {K V : Type} [DecidableEq K]
    {l : List (K × V)} {k : K} (h : groupVals l k ≠ []) : k ∈ keysOf l := by
  rcases hx : l.filter (fun x => x.1 = k) with _ | ⟨x, xs⟩
  · exact absurd (by simp [groupVals, hx]) h
  · have hmem : x ∈ l.filter (fun x => x.1 = k) := by
      rw [hx]; exact List.mem_cons_self x xs
    rcases List.mem_filter.mp hmem with ⟨hxl, hxk⟩
    have hk : x.1 = k := by simpa using hxk
    exact mem_keysOf.mpr (hk ▸ List.mem_map_of_mem Prod.fst hxl)

/-- Mapping a key-preserving function over keys absent from a list and
filtering for that key yields nothing. -/
theorem filter_key_map_nil {K V : Type} [DecidableEq K]
    (f : K → AggOutcome K V) (hf : ∀ x, (f x).key = x) (k : K) :
    ∀ ks : List K, k ∉ ks →
      (ks.map f).filter (fun o => o.key = k) = [] := by
  intro ks
  induction ks with
  | nil => intro _; rfl
  | cons a ks ih =>
    intro hk
    have hka : ¬ (f a).key = k := by
      rw [hf a]; exact fun h => hk (h ▸ List.mem_cons_self a ks)
    simp only [List.map_cons, List.filter_cons]
    rw [if_neg (by simpa using hka)]
    exact ih (fun h => hk (List.mem_cons_of_mem a h))

/-- Mapping a key-preserving function over a duplicate-free key list and
filtering for one of its keys yields exactly that one outcome. -/
theorem filter_key_map_eq {K V : Type} [DecidableEq K]
    (f : K → AggOutcome K V) (hf : ∀ x, (f x).key = x) (k : K) :
    ∀ ks : List K, ks.Nodup → k ∈ ks →
      (ks.map f).filter (fun o => o.key = k) = [f k] := by
  intro ks
  induction ks with
  | nil => intro _ hk; cases hk
  | cons a ks ih =>
    intro hnd hk
    rcases List.nodup_cons.mp hnd with ⟨hna, hnd2⟩
    simp only [List.map_cons, List.filter_cons]
    rcases List.mem_cons.mp hk with rfl | hk2
    · rw [if_pos (by simp [hf]), filter_key_map_nil f hf k ks hna]
    · have hka : ¬ (f a).key = k := by
        rw [hf a]; exact fun h => hna (h ▸ hk2)
      rw [if_neg (by simpa using hka)]
      exact ih hnd2 hk2

/-- Elements of a successful fallible insertion come from the inserted
element or the original list. -/
theorem orderedInsertP_mem {V : Type} (cmp : V → V → Option Ordering)
    (a : V) : ∀ (l r : List V), orderedInsertP cmp a l = some r →
      ∀ x ∈ r, x = a ∨ x ∈ l := by
  intro l
  induction l with
  | nil =>
    intro r hr x hx
    cases hr
    exact Or.inl (List.mem_singleton.mp hx)
  | cons b l ih =>
    intro r hr x hx
    unfold orderedInsertP at hr
    rcases hcb : cmp a b with _ | o
    · rw [hcb] at hr; cases hr
    · rcases o with _ | _ | _ <;> rw [hcb] at hr
      · cases hr
        rcases List.mem_cons.mp hx with h | h
        · exact Or.inl h
        · exact Or.inr h
      · cases hr
        rcases List.mem_cons.mp hx with h | h
        · exact Or.inl h
        · exact Or.inr h
      · rcases Option.map_eq_some'.mp hr with ⟨r2, hr2, rfl⟩
        rcases List.mem_cons.mp hx with h | h
        · exact Or.inr (by rw [h]; exact List.mem_cons_self b l)
        · rcases ih r2 hr2 x h with h2 | h2
          · exact Or.inl h2
          · exact Or.inr (List.mem_cons_of_mem b h2)

/-- Fallible insertion succeeds when the inserted element is comparable
with every list element. -/
theorem orderedInsertP_isSome {V : Type} (cmp : V → V → Option Ordering)
    (a : V) : ∀ l : List V, (∀ b ∈ l, (cmp a b).isSome) →
      (orderedInsertP cmp a l).isSome := by
  intro l
  induction l with
  | nil => intro _; rfl
  | cons b l ih =>
    intro h
    unfold orderedInsertP
    rcases hcb : cmp a b with _ | o
    · exact absurd (hcb ▸ h b (List.mem_cons_self b l)) (by simp)
    · rcases o with _ | _ | _
      · rfl
      · rfl
      · show (Option.map (fun r => b :: r) (orderedInsertP cmp a l)).isSome = true
        rw [Option.isSome_map']
        exact ih (fun c hc => h c (List.mem_cons_of_mem b hc))

/-- Elements of a successful fallible sort come from the input list. -/
theorem insertionSortP_mem {V : Type} (cmp : V → V → Option Ordering) :
    ∀ (l r : List V), insertionSortP cmp l = some r → ∀ x ∈ r, x ∈ l := by
  intro l
  induction l with
  | nil =>
    intro r hr x hx
    cases hr
    cases hx
  | cons a l ih =>
    intro r hr x hx
    unfold insertionSortP at hr
    rcases Option.bind_eq_some.mp hr with ⟨s, hs, hins⟩
    rcases orderedInsertP_mem cmp a s r hins x hx with h | h
    · exact h ▸ List.mem_cons_self a l
    · exact List.mem_cons_of_mem a (ih s hs x h)

/-- The fallible sort of line 138 succeeds whenever every pair of group
elements is comparable: partial_cmp().unwrap() cannot panic then. -/
theorem insertionSortP_isSome {V : Type} (cmp : V → V → Option Ordering) :
    ∀ l : List V, (∀ a ∈ l, ∀ b ∈ l, (cmp a b).isSome) →
      (insertionSortP cmp l).isSome := by
  intro l
  induction l with
  | nil => intro _; rfl
  | cons a l ih =>
    intro h
    unfold insertionSortP
    have htail : (insertionSortP cmp l).isSome :=
      ih (fun x hx y hy =>
        h x (List.mem_cons_of_mem a hx) y (List.mem_cons_of_mem a hy))
    rcases hs : insertionSortP cmp l with _ | s
    · rw [hs] at htail; cases htail
    · rw [Option.some_bind]
      exact orderedInsertP_isSome cmp a s
        (fun b hb => h a (List.mem_cons_self a l) b
          (List.mem_cons_of_mem a (insertionSortP_mem cmp l s hs b hb)))

/-- The betweenness-centrality pipeline is the aggregation of the combined,
boundary-filtered output of the two exploration runs. -/
theorem betweennessCentrality_eq {N D1 V : Type} [DecidableEq D1]
    (ge : List D1 → List (D1 × V) → String → (D1 → Option N) →
      (D1 → Option N) → List (D1 × V))
    (src dst : D1 → Option N)
    (cmp : V → V → Option Ordering) (sr : V → V → Nat → V)
    (name : String) (t : Duration)
    (self : List D1) (forwardEdges backwardEdges : List (D1 × V)) :
    betweennessCentrality ge src dst cmp sr name t self forwardEdges
        backwardEdges =
      aggregateOp cmp sr
        (combinedFiltered ge src dst name self forwardEdges backwardEdges) := by
  unfold betweennessCentrality combinedFiltered
  rw [timePartition_eq, timePartition_eq, timePartition_eq]

/- Claim theorems. -/

/-- C10: push_time followed by projecting the second component of each
pair emits exactly the original data items, unchanged and each exactly
once, in the same batches at the same logical timestamps. -/
theorem c10_pushTime_roundTrip {D : Type} (s : List (Duration × List D)) :
    (pushTime s).map (fun b => (b.1, b.2.map (fun x => x.2))) = s := by
  induction s with
  | nil => rfl
  | cons b s ih =>
    simp only [pushTime, List.map_cons] at *
    rw [pushTimeBatch_map_snd, ih]

/-- C5: push_time pairs each datum with the logical timestamp of its
batch; the exchange key is the nanosecond count of the timestamp alone,
never a function of the datum, so any two items carrying equal timestamps
receive equal partition keys, across all three exchanged streams. -/
theorem c5_time_keyed_partitioning :
    (∀ (D : Type) (s : List (Duration × List D)),
      ∀ b ∈ pushTime s, ∀ x ∈ b.2, x.1 = b.1) ∧
    (∀ (D : Type) (x : Duration × D), exchangeKey x = x.1.asNanos % 2 ^ 64) ∧
    (∀ (D E : Type) (t u : Duration) (d : D) (e : E),
      t = u → exchangeKey (t, d) = exchangeKey (u, e)) := by
  refine ⟨?_, ?_, ?_⟩
  · intro D s b hb x hx
    rcases List.mem_map.mp hb with ⟨c, _, rfl⟩
    exact pushTimeBatch_fst c.1 c.2 x hx
  · intro D x
    rfl
  · intro D E t u d e h
    rw [h]
    rfl

/-- C5 witness: two items of different types and different content with the
same timestamp receive the same partition key. -/
theorem c5_witness :
    exchangeKey (Duration.mk 1 2, (3 : Nat)) =
      exchangeKey (Duration.mk 1 2, (true : Bool)) :=
  c5_time_keyed_partitioning.2.2 Nat Bool (Duration.mk 1 2) (Duration.mk 1 2)
    3 true rfl

/-- C7: scale_reduce for u64 is the product self * other * multiplicand in
u64 arithmetic (exactly the mathematical product whenever it fits in u64,
with the usize multiplicand cast to u64); the f64 implementation is the
same product in the idealised exact model; and a group of two unit values
aggregates to centrality 1. -/
theorem c7_scale_reduce_product :
    (∀ a b m : Nat, scaleReduceU64 a b m = a * b * (m % 2 ^ 64) % 2 ^ 64) ∧
    (∀ a b m : Nat, m < 2 ^ 64 → a * b * m < 2 ^ 64 →
      scaleReduceU64 a b m = a * b * m) ∧
    (∀ (x y : ℚ) (m : Nat), scaleReduceF64 x y m = x * y * (m : ℚ)) ∧
    (∀ (K : Type) (k : K),
      aggregateGroupP linCmp scaleReduceU64 k [1, 1] =
        AggOutcome.output k 1) := by
  refine ⟨?_, ?_, ?_, ?_⟩
  · intro a b m
    unfold scaleReduceU64
    rw [Nat.mod_mul_mod]
  · intro a b m hm hab
    unfold scaleReduceU64
    rw [Nat.mod_mul_mod, Nat.mod_eq_of_lt hm, Nat.mod_eq_of_lt hab]
  · intro x y m
    rfl
  · intro K k
    unfold aggregateGroupP
    rw [insertionSortP_linCmp]
    norm_num [List.insertionSort, List.orderedInsert, scaleReduceU64]

/-- C7 witness: the u64 scale_reduce at 2, 3, 4 is the product 24. -/
theorem c7_witness : scaleReduceU64 2 3 4 = 2 * 3 * 4 :=
  c7_scale_reduce_product.2.1 2 3 4 (by norm_num) (by norm_num)

/-- C2: a group with exactly one flow value, and more generally any group
of odd size, panics with the offending key and the observed (sorted)
multiset and emits no centrality tuple; even-sized groups never raise the
parity panic. -/
theorem c2_odd_group_panics (V : Type) [LinearOrder V] (K : Type)
    (sr : V → V → Nat → V) (k : K) (l : List V) :
    (l.length = 1 →
      aggregateGroupP linCmp sr k l =
        AggOutcome.parityPanic 1 (List.insertionSort (fun x y => x ≤ y) l) k) ∧
    (l.length % 2 = 1 →
      aggregateGroupP linCmp sr k l =
        AggOutcome.parityPanic l.length
          (List.insertionSort (fun x y => x ≤ y) l) k) ∧
    List.Perm (List.insertionSort (fun x y => x ≤ y) l) l ∧
    (l.length % 2 = 0 → ∀ (n : Nat) (s : List V) (k2 : K),
      aggregateGroupP linCmp sr k l ≠ AggOutcome.parityPanic n s k2) := by
  have hlen : (List.insertionSort (fun x y => x ≤ y) l).length = l.length :=
    List.length_insertionSort (fun x y => x ≤ y) l
  refine ⟨?_, ?_, List.perm_insertionSort (fun x y => x ≤ y) l, ?_⟩
  · intro h1
    unfold aggregateGroupP
    rw [insertionSortP_linCmp]
    simp only [Option.some.injEq]
    rw [if_pos (by omega)]
  · intro h2
    unfold aggregateGroupP
    rw [insertionSortP_linCmp]
    by_cases h1 : l.length = 1
    · simp only []
      rw [if_pos (by omega), h1]
    · simp only []
      rw [if_neg (by omega), if_pos (by omega), hlen]
  · intro h2 n s k2 heq
    unfold aggregateGroupP at heq
    rw [insertionSortP_linCmp] at heq
    simp only [] at heq
    rw [if_neg (by omega), if_neg (by omega)] at heq
    rcases hs : List.insertionSort (fun x y => x ≤ y) l with _ | ⟨a, rest⟩ <;>
      rw [hs] at heq <;> cases heq

/-- C2 witness: a singleton group with value 5 under key 7 produces the
parity panic carrying size 1, the multiset and the key. -/
theorem c2_witness :
    aggregateGroupP linCmp scaleReduceU64 7 [5] =
      AggOutcome.parityPanic 1 (List.insertionSort (fun x y => x ≤ y) [5]) 7 :=
  (c2_odd_group_panics Nat Nat scaleReduceU64 7 [5]).1 rfl

/-- C3: every even-sized (necessarily nonempty) aggregation group passes
the parity validation and emits a centrality value; the check never
inspects which direction the values came from, so an even count from one
single direction is accepted too. -/
theorem c3_even_group_accepted (V : Type) [LinearOrder V] (K : Type)
    (sr : V → V → Nat → V) (k : K) (l : List V)
    (h0 : 0 < l.length) (h2 : l.length % 2 = 0) :
    ∃ v : V, aggregateGroupP linCmp sr k l = AggOutcome.output k v := by
  have hlen : (List.insertionSort (fun x y => x ≤ y) l).length = l.length :=
    List.length_insertionSort (fun x y => x ≤ y) l
  rcases hs : List.insertionSort (fun x y => x ≤ y) l with _ | ⟨a, rest⟩
  · rw [hs] at hlen
    simp at hlen
    omega
  · rw [hs] at hlen
    refine ⟨sr a ((a :: rest).getD ((a :: rest).length / 2) a)
      ((a :: rest).length / 2), ?_⟩
    unfold aggregateGroupP
    rw [insertionSortP_linCmp, hs]
    simp only []
    rw [if_neg (by omega), if_neg (by omega)]

/-- C3 witness: a group of two equal values, as would arise from a single
direction only, is accepted and scored. -/
theorem c3_witness :
    ∃ v : Nat, aggregateGroupP linCmp scaleReduceU64 0 [2, 2] =
      AggOutcome.output 0 v :=
  c3_even_group_accepted Nat Nat scaleReduceU64 0 [2, 2] (by norm_num)
    (by norm_num)

/-- C8: the aggregation of one group depends only on the multiset of its
collected values; any two arrival orders of the same values produce the
same outcome. -/
theorem c8_order_insensitive (V : Type) [LinearOrder V] (K : Type)
    (sr : V → V → Nat → V) (k : K) (l1 l2 : List V)
    (hp : List.Perm l1 l2) :
    aggregateGroupP linCmp sr k l1 = aggregateGroupP linCmp sr k l2 := by
  have hsort : List.insertionSort (fun x y => x ≤ y) l1 =
      List.insertionSort (fun x y => x ≤ y) l2 :=
    List.eq_of_perm_of_sorted
      ((List.perm_insertionSort (fun x y => x ≤ y) l1).trans
        (hp.trans (List.perm_insertionSort (fun x y => x ≤ y) l2).symm))
      (List.sorted_insertionSort (fun x y => x ≤ y) l1)
      (List.sorted_insertionSort (fun x y => x ≤ y) l2)
  unfold aggregateGroupP
  rw [insertionSortP_linCmp, insertionSortP_linCmp, hsort]

/-- C8 witness: the values 2, 1 arriving in either order aggregate to the
same outcome. -/
theorem c8_witness :
    aggregateGroupP linCmp scaleReduceU64 0 [2, 1] =
      aggregateGroupP linCmp scaleReduceU64 0 [1, 2] :=
  c8_order_insensitive Nat Nat scaleReduceU64 0 [2, 1] [1, 2] (by decide)

/-- C9: when every pair of values in a group is comparable the unwrap on
partial_cmp in the sorting step cannot panic, whatever the comparator and
group; and a concrete group containing an f64 NaN makes the aggregation
panic during sorting instead of emitting anything. -/
theorem c9_partial_cmp_unwrap :
    (∀ (V K : Type) (cmp : V → V → Option Ordering) (sr : V → V → Nat → V)
      (k : K) (l : List V), (∀ a ∈ l, ∀ b ∈ l, (cmp a b).isSome) →
      ∀ k2 : K, aggregateGroupP cmp sr k l ≠ AggOutcome.sortPanic k2) ∧
    aggregateGroupP f64PartialCmp f64ScaleReduce 0 [F64.fin 1, F64.nan] =
      AggOutcome.sortPanic 0 := by
  constructor
  · intro V K cmp sr k l h k2 heq
    have hsome := insertionSortP_isSome cmp l h
    unfold aggregateGroupP at heq
    rcases hx : insertionSortP cmp l with _ | sorted
    · rw [hx] at hsome
      cases hsome
    · simp only [hx] at heq
      split at heq
      · cases heq
      · split at heq
        · cases heq
        · split at heq <;> cases heq
  · decide

/-- C9 witness: a singleton group of a finite value is comparable with
itself, so the sorting unwrap does not panic on it. -/
theorem c9_witness :
    aggregateGroupP f64PartialCmp f64ScaleReduce 1 [F64.fin 2] ≠
      AggOutcome.sortPanic 1 :=
  c9_partial_cmp_unwrap.1 F64 Nat f64PartialCmp f64ScaleReduce 1 [F64.fin 2]
    (by decide) 1

/-- C6: betweenness_centrality runs the exploration engine exactly twice,
forward with extractors (src, dst) over the base edge stream concatenated
with the forward entry-point edges and seeded by the forward entries, and
backward with extractors (dst, src) over the base stream concatenated with
the backward entry-point edges and seeded by the backward entries; the two
outputs are concatenated, then filtered and aggregated. -/
theorem c6_two_exploration_runs {N D1 V : Type} [DecidableEq D1]
    (ge : List D1 → List (D1 × V) → String → (D1 → Option N) →
      (D1 → Option N) → List (D1 × V))
    (src dst : D1 → Option N) (cmp : V → V → Option Ordering)
    (sr : V → V → Nat → V) (name : String) (t : Duration)
    (self : List D1) (forwardEdges backwardEdges : List (D1 × V)) :
    betweennessCentrality ge src dst cmp sr name t self forwardEdges
        backwardEdges =
      aggregateOp cmp sr
        ((ge (self ++ forwardEdges.map (fun x => x.1)) forwardEdges
            (name ++ " Forward") src dst ++
          ge (self ++ backwardEdges.map (fun x => x.1)) backwardEdges
            (name ++ " Backward") dst src).filter
          (fun x => (src x.1).isSome && (dst x.1).isSome)) := by
  rw [betweennessCentrality_eq]
  rfl

/-- C4: no tuple for an edge with a missing source or destination ever
appears in the output of betweenness_centrality, for any exploration
engine and any inputs. -/
theorem c4_boundary_exclusion {N D1 V : Type} [DecidableEq D1]
    (ge : List D1 → List (D1 × V) → String → (D1 → Option N) →
      (D1 → Option N) → List (D1 × V))
    (src dst : D1 → Option N) (cmp : V → V → Option Ordering)
    (sr : V → V → Nat → V) (name : String) (t : Duration)
    (self : List D1) (forwardEdges backwardEdges : List (D1 × V))
    (e : D1) (v : V)
    (ho : AggOutcome.output e v ∈
      betweennessCentrality ge src dst cmp sr name t self forwardEdges
        backwardEdges) :
    (src e).isSome ∧ (dst e).isSome := by
  rw [betweennessCentrality_eq] at ho
  rcases mem_aggregateOp ho with ⟨hk, _⟩
  have he : e ∈
      (combinedFiltered ge src dst name self forwardEdges
        backwardEdges).map Prod.fst :=
    mem_keysOf.mp (by simpa [AggOutcome.key] using hk)
  rcases List.mem_map.mp he with ⟨x, hx, rfl⟩
  rcases List.mem_filter.mp hx with ⟨_, hpred⟩
  simpa using hpred

/-- C4 witness: with an echoing engine and one interior edge seeded both
ways, the emitted edge has both endpoints present. -/
theorem c4_witness :
    (some 0 : Option Nat).isSome ∧ (some 1 : Option Nat).isSome :=
  c4_boundary_exclusion (fun _ es _ _ _ => es) Prod.fst Prod.snd linCmp
    scaleReduceU64 "" (Duration.mk 0 0) ([] : List (Option Nat × Option Nat))
    [((some 0, some 1), 1)] [((some 0, some 1), 1)] (some 0, some 1) 1
    (by decide)

/-- C1: for a non-boundary edge whose aggregation group has even size
2 * n with n at least 1, the pipeline sorts the group ascending and emits
exactly one tuple for that edge, whose value is
sorted[0].scale_reduce(sorted[n], n). -/
theorem c1_even_group_sorted_scale_reduce {N D1 V : Type} [DecidableEq D1]
    [LinearOrder V] [Inhabited V]
    (ge : List D1 → List (D1 × V) → String → (D1 → Option N) →
      (D1 → Option N) → List (D1 × V))
    (src dst : D1 → Option N) (sr : V → V → Nat → V) (name : String)
    (t : Duration) (self : List D1)
    (forwardEdges backwardEdges : List (D1 × V)) (e : D1) (n : Nat)
    (hn : 1 ≤ n)
    (hlen : (groupVals (combinedFiltered ge src dst name self forwardEdges
      backwardEdges) e).length = 2 * n) :
    ((betweennessCentrality ge src dst linCmp sr name t self forwardEdges
        backwardEdges).filter (fun o => o.key = e)) =
      [AggOutcome.output e
        (sr ((List.insertionSort (fun x y => x ≤ y)
              (groupVals (combinedFiltered ge src dst name self forwardEdges
                backwardEdges) e)).getD 0 default)
          ((List.insertionSort (fun x y => x ≤ y)
              (groupVals (combinedFiltered ge src dst name self forwardEdges
                backwardEdges) e)).getD n default)
          n)] ∧
    (List.insertionSort (fun x y => x ≤ y)
      (groupVals (combinedFiltered ge src dst name self forwardEdges
        backwardEdges) e)).Sorted (fun x y => x ≤ y) ∧
    List.Perm
      (List.insertionSort (fun x y => x ≤ y)
        (groupVals (combinedFiltered ge src dst name self forwardEdges
          backwardEdges) e))
      (groupVals (combinedFiltered ge src dst name self forwardEdges
        backwardEdges) e) := by
  set inp := combinedFiltered ge src dst name self forwardEdges backwardEdges
    with hinp
  have hgne : groupVals inp e ≠ [] := by
    intro h
    rw [h] at hlen
    simp at hlen
    omega
  have he : e ∈ keysOf inp := mem_keysOf_of_groupVals_ne_nil hgne
  have hslen : (List.insertionSort (fun x y => x ≤ y)
      (groupVals inp e)).length = (groupVals inp e).length :=
    List.length_insertionSort (fun x y => x ≤ y) (groupVals inp e)
  refine ⟨?_, List.sorted_insertionSort (fun x y => x ≤ y) (groupVals inp e),
    List.perm_insertionSort (fun x y => x ≤ y) (groupVals inp e)⟩
  rw [betweennessCentrality_eq, ← hinp]
  unfold aggregateOp
  rw [filter_key_map_eq (fun k => aggregateGroupP linCmp sr k (groupVals inp k))
    (fun x => key_aggregateGroupP linCmp sr x (groupVals inp x)) e
    (keysOf inp) (List.nodup_dedup (inp.map Prod.fst)) he]
  rcases hs : List.insertionSort (fun x y => x ≤ y) (groupVals inp e)
    with _ | ⟨a, rest⟩
  · rw [hs] at hslen
    simp at hslen
    omega
  · rw [hs] at hslen
    unfold aggregateGroupP
    rw [insertionSortP_linCmp, hs]
    simp only []
    rw [if_neg (by omega), if_neg (by omega)]
    have hnlt : n < (a :: rest).length := by omega
    have hdiv : (a :: rest).length / 2 = n := by omega
    rw [hdiv, List.getD_eq_getElem (a :: rest) a hnlt,
      List.getD_eq_getElem (a :: rest) default hnlt]
    rfl

/-- C1 witness: with an echoing engine and one interior edge seeded both
ways, the group is [1, 1], n is 1 and the single emitted tuple carries
centrality scale_reduce 1 1 1, that is 1. -/
theorem c1_witness :
    ((betweennessCentrality (fun _ es _ _ _ => es) Prod.fst Prod.snd linCmp
        scaleReduceU64 "" (Duration.mk 0 0)
        ([] : List (Option Nat × Option Nat))
        [((some 0, some 1), 1)] [((some 0, some 1), 1)]).filter
        (fun o => o.key = ((some 0, some 1) : Option Nat × Option Nat))) =
      [AggOutcome.output ((some 0, some 1) : Option Nat × Option Nat) 1] ∧
    ([1, 1] : List Nat).Sorted (fun x y => x ≤ y) ∧
    List.Perm ([1, 1] : List Nat) [1, 1] :=
  c1_even_group_sorted_scale_reduce (fun _ es _ _ _ => es) Prod.fst Prod.snd
    scaleReduceU64 "" (Duration.mk 0 0) [] [((some 0, some 1), 1)]
    [((some 0, some 1), 1)] (some 0, some 1) 1 (by decide) (by decide)
